import Mathlib

/-!
Verification of the 1brc streaming parse-aggregate-merge pipeline.

The development shallowly embeds the Go sources:
* byte strings are `List Char` (the inputs are ASCII, so Go's byte-wise
  operations coincide with character-wise ones);
* `float64` values are modeled as exact rationals.  Every value in the
  program is produced by the fixed-format parser from a literal with one
  fractional digit, so every value is an integer multiple of 1/10; we
  represent such a value by its integer numerator over 10 ("tenths", an
  `Int`).  Sums, minima and maxima of tenths are again tenths, exactly.
  The mean is only ever formed at output time from (Sum, Count), and the
  formatter below performs that division with exact integer rounding.
  (IEEE-754 double rounding is not modeled; on the decimal values
  exercised in this development the two agree.)
* fallible code returns `Except`/`Option`; a Go `panic` is `none`;
* `while` loops become fuel-indexed structural recursions; each wrapper
  supplies fuel provably larger than the number of iterations, so the
  fuel-exhaustion branch is unreachable on the stated inputs.
-/

/-! ## Byte-level list utilities (bytes.IndexByte / bytes.LastIndexByte) -/

/-- Model of Go `bytes.IndexByte`: index of the first occurrence of `c`,
`none` when absent (Go returns -1). -/
def firstIdx (c : Char) : List Char → Option Nat
  | [] => none
  | a :: as => if a = c then some 0 else (firstIdx c as).map (· + 1)

/-- Model of Go `bytes.LastIndexByte`: index of the last occurrence of `c`,
`none` when absent (Go returns -1). -/
def lastIdx (c : Char) : List Char → Option Nat
  | [] => none
  | a :: as =>
    match lastIdx c as with
    | some j => some (j + 1)
    | none => if a = c then some 0 else none

/-- Byte-wise (here character-wise) strict lexicographic order on byte
strings, as used by Go's `strings.Compare`/`<` on `string`. -/
def lexLt : List Char → List Char → Bool
  | [], [] => false
  | [], _ :: _ => true
  | _ :: _, [] => false
  | a :: as, b :: bs => if a < b then true else if b < a then false else lexLt as bs

/-! ## Fast numeric parser (part_003 `ParseFloat`) -/

/-- Go byte subtraction `b - '0'` (unsigned, wraps modulo 256). -/
def byteSubZero (c : Char) : Nat := (c.toNat + 208) % 256

/-- Embedding of part_003 `ParseFloat`.  The Go function returns the
float64 `m * (f + (value[n-1]-'0')/10)`; we return its numerator in
tenths, i.e. `m * (f*10 + (value[n-1]-'0'))`, which is exact.  The Go
code indexes `value[0]` and `value[n-1]` unconditionally (panicking on
the empty slice); the model uses a default character there, a branch no
theorem below relies on. -/
def ParseFloat (value : List Char) : Int :=
  let neg := value.headD 'x' = '-'
  let rest := if neg then value.drop 1 else value
  let ip : Int := rest.take (rest.length - 2) |>.foldl (fun f c => f * 10 + (byteSubZero c : Int)) 0
  let frac : Int := byteSubZero (value.getLastD 'x')
  (if neg then -1 else 1) * (ip * 10 + frac)

/-! ## Line parsers -/

/-- Error taxonomy of the parsing layer: `SeparatorNotFound` is
part_002's `ErrSeparatorNotFound` (the spec's `MalformedRecord`),
`MalformedNumber` stands for any error of the numeric conversion. -/
inductive PErr where
  | SeparatorNotFound
  | MalformedNumber
  deriving DecidableEq, Repr

deriving instance DecidableEq for Except

/-- Value of a list of decimal digit characters. -/
def digitsVal (l : List Char) : Nat := l.foldl (fun n c => n * 10 + (c.toNat - 48)) 0

/-- Modelled from the spec: part_002's `ValueToFloat` calls
`strconv.ParseFloat` (Go standard library, not part of src/); the spec
fixes the numeric fields to the fixed-decimal shape "optional leading
sign, one or more integer digits, a decimal point, exactly one
fractional digit" (and plain integers are parsed by strconv the same
way).  We model strconv on exactly that fragment, returning the exact
value in tenths, and `MalformedNumber` outside it. -/
def ValueToFloat (value : List Char) : Except PErr Int :=
  let neg := value.headD 'x' = '-'
  let mag := if neg then value.drop 1 else value
  match firstIdx '.' mag with
  | none =>
    if mag ≠ [] ∧ mag.all Char.isDigit then
      .ok ((if neg then -1 else 1) * (digitsVal mag : Int) * 10)
    else .error .MalformedNumber
  | some p =>
    let ip := mag.take p
    let fp := mag.drop (p + 1)
    if ip ≠ [] ∧ fp.length = 1 ∧ ip.all Char.isDigit ∧ fp.all Char.isDigit then
      .ok ((if neg then -1 else 1) * ((digitsVal ip : Int) * 10 + (digitsVal fp : Int)))
    else .error .MalformedNumber

/-- Embedding of part_002 `ParseLine`: split at the FIRST `';'`
(`bytes.IndexByte`); no separator is `ErrSeparatorNotFound`. -/
def ParseLine2 (line : List Char) : Except PErr (List Char × Int) :=
  match firstIdx ';' line with
  | none => .error .SeparatorNotFound
  | some sep => (ValueToFloat (line.drop (sep + 1))).map (fun v => (line.take sep, v))

/-- Embedding of part_003 `ParseLine`: split at the LAST `';'`
(`bytes.LastIndexByte`); no separator makes the Go code panic, which we
model as `none`. -/
def ParseLine3 (line : List Char) : Option (List Char × Int) :=
  match lastIdx ';' line with
  | none => none
  | some sep => some (line.take sep, ParseFloat (line.drop (sep + 1)))

/-! ## Statistics and the per-worker aggregate store (part_003) -/

/-- Embedding of part_003 `Stats`: running min/max/sum (in tenths) and
count for one key.  Go stores `Count` as a float64 that only ever holds
integral values; we model it as `Nat`. -/
structure Stats where
  Min : Int
  Max : Int
  Sum : Int
  Count : Nat
  deriving DecidableEq, Repr

/-- Embedding of part_003 `NewStats`. -/
def NewStats (value : Int) : Stats := ⟨value, value, value, 1⟩

/-- Embedding of part_003 `Stats.Update` (fold one more value in). -/
def Stats.Update (st : Stats) (value : Int) : Stats :=
  { Min := if value < st.Min then value else st.Min
    Max := if st.Max < value then value else st.Max
    Sum := st.Sum + value
    Count := st.Count + 1 }

/-- Embedding of part_003 `Stats.Merge`. -/
def Stats.Merge (st other : Stats) : Stats :=
  { Min := if other.Min < st.Min then other.Min else st.Min
    Max := if st.Max < other.Max then other.Max else st.Max
    Sum := st.Sum + other.Sum
    Count := st.Count + other.Count }

/-- Embedding of part_003 `Calc`.  The Go field `cities` is a
`map[string]*Stats`; a Go map has no observable order and two maps are
equal exactly when they bind the same keys to the same values, so we
represent it canonically as an association list kept in strictly
ascending byte-wise key order (the same order `WriteResults` sorts the
keys into).  Map lookup/insert below respect this representation. -/
structure Calc where
  cities : List (List Char × Stats)
  deriving DecidableEq, Repr

/-- The fresh store `NewCalc()` (the capacity hint has no semantics). -/
def Calc.empty : Calc := ⟨[]⟩

/-- Canonical insert-or-combine on the sorted association list: if the
key is bound, combine the existing statistics with `f`, otherwise bind
`k` to `s` at its ordered position.  This is the representation of the
Go map operations `cities[name]` lookup plus write. -/
def insertWith (f : Stats → Stats) (k : List Char) (s : Stats) :
    List (List Char × Stats) → List (List Char × Stats)
  | [] => [(k, s)]
  | (k', s') :: rest =>
    if k = k' then (k', f s') :: rest
    else if lexLt k k' then (k, s) :: (k', s') :: rest
    else (k', s') :: insertWith f k s rest

/-- Embedding of part_003 `Calc.Update`: fold `value` into the entry of
`name`, creating it with `NewStats` when absent. -/
def Calc.Update (c : Calc) (name : List Char) (value : Int) : Calc :=
  ⟨insertWith (fun st => st.Update value) name (NewStats value) c.cities⟩

/-- Embedding of part_003 `Calc.Merge`: fold a whole `Stats` into the
entry of `name`, adopting it when absent. -/
def Calc.Merge (c : Calc) (name : List Char) (other : Stats) : Calc :=
  ⟨insertWith (fun st => st.Merge other) name other c.cities⟩

/-- Fold a list of (key, statistics) entries into a store, in order;
this is the inner loop of part_003 `MergeParts`. -/
def Calc.mergeAll (c : Calc) (es : List (List Char × Stats)) : Calc :=
  es.foldl (fun a e => a.Merge e.1 e.2) c

/-- Embedding of part_003 `MergeParts`: fold every entry of every
per-worker store into one fresh global store. -/
def MergeParts (l : List Calc) : Calc :=
  l.foldl (fun acc c => acc.mergeAll c.cities) Calc.empty

/-! ## Output formatting (part_003 `Calc.WriteResults`) -/

/-- Opening brace character (written via its code point). -/
def obrace : Char := Char.ofNat 123

/-- Closing brace character (written via its code point). -/
def cbrace : Char := Char.ofNat 125

/-- Round the real number `a / b` (with `b > 0`) to the nearest integer,
ties to even — the rounding `%.1f` applies to the scaled value. -/
def roundHE (a : Int) (b : Nat) : Int :=
  let q := Int.ediv a b
  let r := Int.emod a b
  if 2 * r < (b : Int) then q else if (b : Int) < 2 * r then q + 1
  else if Int.emod q 2 = 0 then q else q + 1

/-- Render a sign plus a magnitude in tenths as `%.1f` does:
integer part, '.', exactly one fractional digit. -/
def fmtParts (neg : Bool) (m : Nat) : String :=
  (if neg then "-" else "") ++ Nat.repr (m / 10) ++ "." ++ Nat.repr (m % 10)

/-- Go `%.1f` applied to a float64 holding the exact value `n/10`:
the value is already a whole number of tenths, so no rounding occurs. -/
def fmt1 (n : Int) : String := fmtParts (n < 0) n.natAbs

/-- Go `%.1f` applied to the mean `Sum/Count` (Sum in tenths): the mean
in tenths is `S / C`, rounded to nearest, ties to even.  The printed
sign is the sign of the mean (negative exactly when `S < 0`, as
`C > 0`). -/
def fmtMean (S : Int) (C : Nat) : String := fmtParts (S < 0) (roundHE S C).natAbs

/-- One `key=min/mean/max` entry of the output, as produced by
`fmt.Fprintf(w, "%s=%.1f/%.1f/%.1f", name, Min, Sum/Count, Max)`. -/
def entryOut (e : List Char × Stats) : String :=
  String.mk e.1 ++ "=" ++ fmt1 e.2.Min ++ "/" ++ fmtMean e.2.Sum e.2.Count ++ "/" ++ fmt1 e.2.Max

/-- Comma-join of the entries (the loop writes "," before every entry
but the first). -/
def joinComma : List String → String
  | [] => ""
  | [s] => s
  | s :: rest => s ++ "," ++ joinComma rest

/-- Embedding of part_003 `Calc.WriteResults`: the Go code copies the
map into a slice, sorts it by name ascending (`l[i].Name < l[j].Name`,
byte-wise), and emits `{`, the comma-separated entries, `}` and a final
newline.  Keys are unique, so the sort's result is exactly the strictly
ascending key order our canonical representation already maintains. -/
def WriteResults (c : Calc) : String :=
  String.mk [obrace] ++ joinComma (c.cities.map entryOut) ++ String.mk [cbrace] ++ "\n"

/-! ## The sorted-sequence aggregate store (part_002 `InfoStore`) -/

/-- Embedding of part_002 `Info`: a key (Go keeps it as an owned
`string`) together with its running statistics in tenths. -/
structure Info where
  Name : List Char
  Min : Int
  Max : Int
  Sum : Int
  Count : Nat
  deriving DecidableEq, Repr

instance : Inhabited Info := ⟨⟨[], 0, 0, 0, 0⟩⟩

/-- Embedding of part_002 `InfoFromItem`. -/
def InfoFromItem (name : List Char) (value : Int) : Info :=
  ⟨name, value, value, value, 1⟩

/-- Embedding of part_002 `Info.Update`. -/
def Info.Update (info : Info) (value : Int) : Info :=
  { info with
    Min := if value < info.Min then value else info.Min
    Max := if info.Max < value then value else info.Max
    Sum := info.Sum + value
    Count := info.Count + 1 }

/-- Embedding of part_002 `Info.Merge`. -/
def Info.Merge (info other : Info) : Info :=
  { info with
    Min := if other.Min < info.Min then other.Min else info.Min
    Max := if info.Max < other.Max then other.Max else info.Max
    Sum := info.Sum + other.Sum
    Count := info.Count + other.Count }

/-- Embedding of part_002 `InfoStore`: the ordered sequence of `Info`
entries. -/
structure InfoStore where
  infos : List Info
  deriving DecidableEq, Repr

/-- Model of `sort.Search(n, Name(i) >= name)` on the store.
`sort.Search`'s contract is: for a predicate that is monotone in `i`
(false then true), return the least index where it holds, or `n`.  The
store is kept sorted, which makes `¬ lexLt Name(i) name` monotone, and
the least such index equals this left-to-right scan: the number of
leading entries with `Name(i) < name`. -/
def storeSearch (name : List Char) : List Info → Nat
  | [] => 0
  | e :: es => if lexLt e.Name name then storeSearch name es + 1 else 0

/-- Embedding of part_002 `InfoStore.Update`: binary-search for the key;
fold the value into the entry when found, append at the end when all
keys are smaller, otherwise shift and insert at the found position. -/
def InfoStore.Update (store : InfoStore) (name : List Char) (value : Int) : InfoStore :=
  let n := store.infos.length
  let i := storeSearch name store.infos
  if i = n then ⟨store.infos ++ [InfoFromItem name value]⟩
  else
    let found := store.infos.getD i default
    if found.Name = name then ⟨store.infos.set i (found.Update value)⟩
    else ⟨store.infos.take i ++ InfoFromItem name value :: store.infos.drop i⟩

/-- Embedding of part_002 `InfoStore.Merge` (same search, folding a
whole `Info`). -/
def InfoStore.Merge (store : InfoStore) (info : Info) : InfoStore :=
  let n := store.infos.length
  let i := storeSearch info.Name store.infos
  if i = n then ⟨store.infos ++ [info]⟩
  else
    let found := store.infos.getD i default
    if found.Name = info.Name then ⟨store.infos.set i (found.Merge info)⟩
    else ⟨store.infos.take i ++ info :: store.infos.drop i⟩

/-- One operation on an `InfoStore`: an `Update` with a parsed item or a
`Merge` with an incoming `Info`. -/
inductive StoreOp where
  | upd (name : List Char) (value : Int)
  | mrg (info : Info)

/-- Apply one store operation. -/
def applyOp (s : InfoStore) : StoreOp → InfoStore
  | .upd name value => s.Update name value
  | .mrg info => s.Merge info

/-- Apply a sequence of store operations starting from the empty store. -/
def applyOps (ops : List StoreOp) : InfoStore := ops.foldl applyOp ⟨[]⟩

/-! ## Page processing, part_002 (`HandleLine` / `HandlePage`) -/

/-- Embedding of part_002 `HandleLine`: parse one record span and fold
it into the store; parse failures propagate. -/
def HandleLine2 (store : InfoStore) (line : List Char) : Except PErr InfoStore :=
  (ParseLine2 line).map (fun r => store.Update r.1 r.2)

/-- Embedding of the loop body of part_002 `HandlePage`: repeatedly find
the next `'\n'` (from the front, `bytes.IndexByte`), handle the span
before it, and after the loop unconditionally handle the remaining span
(the page's final record carries no terminator).  Fuel-indexed; each
iteration consumes at least one byte, so fuel `length + 1` suffices. -/
def handlePage2F (store : InfoStore) : Nat → List Char → Except PErr InfoStore
  | 0, _ => .ok store
  | fuel + 1, buf =>
    match firstIdx '\n' buf with
    | none => HandleLine2 store buf
    | some le =>
      match HandleLine2 store (buf.take le) with
      | .error e => .error e
      | .ok s' => handlePage2F s' fuel (buf.drop (le + 1))

/-- Embedding of part_002 `HandlePage` acting on a page's valid content
`buf = page.b[:page.n]` (the pool bookkeeping has no effect on the
store). -/
def HandlePage2 (store : InfoStore) (content : List Char) : Except PErr InfoStore :=
  handlePage2F store (content.length + 1) content

/-! ## Page processing, part_003 (`lineEndIndex` / `Calc.HandlePage`) -/

/-- Embedding of part_003 `lineEndIndex`: index of the first `'\n'` at
position ≥ 5 (the loop starts at `i := 5` because a record is at least
`X;Y.Z`), `none` when there is none (Go returns -1; in particular for
spans of length ≤ 5 the loop body never runs). -/
def lineEndIndex (b : List Char) : Option Nat :=
  (firstIdx '\n' (b.drop 5)).map (· + 5)

/-- Embedding of part_003 `Calc.HandleLine`: parse (panicking — `none` —
when the separator is missing) and fold the item into the store. -/
def Calc.HandleLine (c : Calc) (line : List Char) : Option Calc :=
  (ParseLine3 line).map (fun r => c.Update r.1 r.2)

/-- Embedding of the loop of part_003 `Calc.HandlePage`: repeatedly cut
at `lineEndIndex`, handle each span, and after the loop unconditionally
handle the remaining span.  Fuel-indexed; every iteration consumes
`le + 1 ≥ 6` bytes, so fuel `length + 1` suffices. -/
def handlePage3F (c : Calc) : Nat → List Char → Option Calc
  | 0, _ => some c
  | fuel + 1, buf =>
    match lineEndIndex buf with
    | none => c.HandleLine buf
    | some le =>
      match c.HandleLine (buf.take le) with
      | none => none
      | some c' => handlePage3F c' fuel (buf.drop (le + 1))

/-- Embedding of part_003 `Calc.HandlePage` on the page's valid content
`page.Bytes() = buf[:n]` (returning the page to the pool does not touch
the store). -/
def Calc.HandlePage (c : Calc) (content : List Char) : Option Calc :=
  handlePage3F c (content.length + 1) content

/-- The record spans part_003 `Calc.HandlePage` cuts a page's content
into (the spans its loop feeds to `HandleLine`, including the final
span after the last terminator, which is fed unconditionally). -/
def pageSegs : Nat → List Char → List (List Char)
  | 0, _ => []
  | fuel + 1, buf =>
    match lineEndIndex buf with
    | none => [buf]
    | some le => buf.take le :: pageSegs fuel (buf.drop (le + 1))

/-- Wrapper supplying sufficient fuel for `pageSegs`. -/
def segsOf (content : List Char) : List (List Char) :=
  pageSegs (content.length + 1) content

/-! ## The chunk reader (part_003 `ReadPages`) -/

/-- Embedding of the goroutine body of part_003 `ReadPages`, reading a
regular file: `r.Read(buf[offt:])` on an `os.File` over a regular file
returns `min(len(buf)-offt, remaining)` bytes (and `(0, io.EOF)` once
the file is exhausted), so the read sizes are determined by `pageSize`
and the input.  Per iteration the Go code copies the carry `prefix` to
the front of a pooled page buffer, reads after it, scans the filled part
backward for `'\n'`; if found it sets the page length `p.n` to that
index and carries the bytes after it, OTHERWISE it leaves both `p.n`
(still `pageSize`, as pool pages are reset to full length) and the empty
carry untouched — the page then exposes stale pool bytes, which we model
by the oracle `stale k` (the unknown previous contents of the k-th
acquired buffer).  On EOF the goroutine returns — closing the channel
WITHOUT flushing the carry.  Fuel-indexed: every iteration consumes at
least one input byte (the carry is always shorter than the page), so
fuel `input length + 1` suffices; the `pageSize = 0` degenerate loop
produces no page here, a case no theorem relies on. -/
def readLoop (ps : Nat) (stale : Nat → List Char) :
    Nat → Nat → List Char → List Char → List (List Char)
  | 0, _, _, _ => []
  | fuel + 1, k, carry, rem =>
    let chunk := rem.take (ps - carry.length)
    if chunk.length = 0 then []
    else
      let filled := carry ++ chunk
      let buffer := filled ++ (stale k).take (ps - filled.length)
      match lastIdx '\n' filled with
      | some i =>
        buffer.take i :: readLoop ps stale fuel (k + 1) (filled.drop (i + 1)) (rem.drop chunk.length)
      | none =>
        buffer.take ps :: readLoop ps stale fuel (k + 1) [] (rem.drop chunk.length)

/-- The sequence of page contents (`page.Bytes()`) part_003 `ReadPages`
sends for a given page size, stale-buffer oracle and input. -/
def ReadPagesGo (ps : Nat) (stale : Nat → List Char) (input : List Char) : List (List Char) :=
  readLoop ps stale (input.length + 1) 0 [] input

/-! ## The reader of part_002 `Solve` and its error handling -/

/-- One observable result of a `file.Read` call: a chunk of data, clean
end of stream, or an I/O error other than end of stream (which `os.File`
reports with `n = 0`). -/
inductive ReadEv where
  | chunk (data : List Char)
  | eof
  | fail

/-- Embedding of the reader goroutine of part_002 `Solve`, driven by a
trace of read results (the model stops when the trace is exhausted).
Faithful to the Go code, the error check is
`if err != nil { if errors.Is(err, io.EOF) { return nil } }` — a non-EOF
error is NOT returned: control falls through with `n = 0`, the backward
scan runs over the carry alone, and the page is sent as usual (with its
stale pool length, since no `'\n'` is found in a `'\n'`-free carry), and
the loop continues to the next read. -/
def solveRead2 (ps : Nat) (stale : Nat → List Char) :
    List ReadEv → Nat → List Char → List (List Char)
  | [], _, _ => []
  | ev :: evs, k, carry =>
    match ev with
    | .eof => []
    | .fail =>
      let filled := carry
      let buffer := filled ++ (stale k).take (ps - filled.length)
      match lastIdx '\n' filled with
      | some i => buffer.take i :: solveRead2 ps stale evs (k + 1) (filled.drop (i + 1))
      | none => buffer.take ps :: solveRead2 ps stale evs (k + 1) []
    | .chunk data =>
      let filled := carry ++ data.take (ps - carry.length)
      let buffer := filled ++ (stale k).take (ps - filled.length)
      match lastIdx '\n' filled with
      | some i => buffer.take i :: solveRead2 ps stale evs (k + 1) (filled.drop (i + 1))
      | none => buffer.take ps :: solveRead2 ps stale evs (k + 1) []

/-! ## The full pipeline (part_003 `Calculate`) -/

/-- Worker-side processing: one worker drains the pages it receives from
the channel, in order (part_003 `Calc.HandlePages` / `DoWork`), into its
private store. -/
def runWorker (pages : List (List Char)) : Option Calc :=
  pages.foldlM Calc.HandlePage Calc.empty

/-- Everything after the reader in part_003 `Calculate`: every worker
drains its share of the pages into a private store, the stores are
folded by `MergeParts`, and the result is written by `WriteResults`.
The division of the page stream among the workers is the scheduler's
choice; theorems below quantify over every division `pws` whose
concatenation is a permutation of the page stream (each page is consumed
by exactly one worker; a worker sees its pages in channel order).
`none` models a worker panic tearing the process down. -/
def PipelineOut (pws : List (List (List Char))) : Option String :=
  (pws.mapM runWorker).map (fun parts => WriteResults (MergeParts parts))

/-! ## Derived notions used by the theorems -/

/-- The sortedness invariant: entries in strictly ascending byte-wise
key order.  Strictness makes every key appear at most once. -/
def StoreSorted (s : InfoStore) : Prop :=
  s.infos.Pairwise (fun a b => lexLt a.Name b.Name = true)

/-- Common shape of `InfoStore.Update` and `InfoStore.Merge`: search,
then fold into the found entry, append, or insert. -/
def storeStep (name : List Char) (fresh : Info) (upd : Info → Info) (s : InfoStore) : InfoStore :=
  let n := s.infos.length
  let i := storeSearch name s.infos
  if i = n then ⟨s.infos ++ [fresh]⟩
  else
    let found := s.infos.getD i default
    if found.Name = name then ⟨s.infos.set i (upd found)⟩
    else ⟨s.infos.take i ++ fresh :: s.infos.drop i⟩

/-- A line-terminated text: every line followed by one terminator. -/
def unparse (lines : List (List Char)) : List Char :=
  (lines.map (fun l => l ++ ['\n'])).flatten

/-- Newline-join of lines without the final terminator — the shape of a
page's content (its last record carries no terminator). -/
def interNL : List (List Char) → List Char
  | [] => []
  | [l] => l
  | l :: ls => l ++ '\n' :: interNL ls

/-- The (key, singleton statistics) entry a record span contributes to
a store (junk on a span the parser panics on; only used under an
`isSome` hypothesis). -/
def entryOf (line : List Char) : List Char × Stats :=
  match ParseLine3 line with
  | some r => (r.1, NewStats r.2)
  | none => ([], NewStats 0)

/-! ## Order lemmas for `lexLt` -/

theorem lexLt_irrefl : ∀ a : List Char, lexLt a a = false
  | [] => rfl
  | c :: cs => by simp [lexLt, lexLt_irrefl cs]

theorem lexLt_asymm : ∀ {a b : List Char}, lexLt a b = true → lexLt b a = false
  | [], [], h => by simp [lexLt] at h
  | [], _ :: _, _ => rfl
  | _ :: _, [], h => by simp [lexLt] at h
  | a :: as, b :: bs, h => by
    simp only [lexLt] at h ⊢
    rcases lt_trichotomy a b with hab | hab | hab
    · simp [hab, not_lt_of_gt hab, ne_of_gt hab]
    · subst hab
      simp only [lt_irrefl, if_false] at h ⊢
      exact lexLt_asymm h
    · simp [hab, not_lt_of_gt hab] at h

theorem lexLt_nil_right : ∀ b : List Char, lexLt b [] = false
  | [] => rfl
  | _ :: _ => rfl

theorem lexLt_trans : ∀ {a b c : List Char},
    lexLt a b = true → lexLt b c = true → lexLt a c = true
  | [], b, [], _, h2 => by rw [lexLt_nil_right b] at h2; cases h2
  | [], _, _ :: _, _, _ => rfl
  | _ :: _, [], _, h1, _ => by simp [lexLt] at h1
  | _ :: _, _ :: _, [], _, h2 => by simp [lexLt] at h2
  | a :: as, b :: bs, c :: cs, h1, h2 => by
    simp only [lexLt] at h1 h2 ⊢
    rcases lt_trichotomy a b with hab | hab | hab
    · rcases lt_trichotomy b c with hbc | hbc | hbc
      · simp [lt_trans hab hbc]
      · subst hbc; simp [hab]
      · simp [hbc, not_lt_of_gt hbc] at h2
    · subst hab
      simp only [lt_irrefl, if_false] at h1
      rcases lt_trichotomy a c with hbc | hbc | hbc
      · simp [hbc]
      · subst hbc
        simp only [lt_irrefl, if_false] at h2 ⊢
        exact lexLt_trans h1 h2
      · simp [hbc, not_lt_of_gt hbc] at h2
    · simp [hab, not_lt_of_gt hab] at h1

theorem lexLt_cases (a b : List Char) : a = b ∨ lexLt a b = true ∨ lexLt b a = true := by
  induction a generalizing b with
  | nil => cases b with
    | nil => exact .inl rfl
    | cons c cs => exact .inr (.inl rfl)
  | cons c cs ih =>
    cases b with
    | nil => exact .inr (.inr rfl)
    | cons d ds =>
      rcases lt_trichotomy c d with h | h | h
      · exact .inr (.inl (by simp [lexLt, h]))
      · subst h
        rcases ih ds with h' | h' | h'
        · exact .inl (by rw [h'])
        · exact .inr (.inl (by simp [lexLt, h']))
        · exact .inr (.inr (by simp [lexLt, h']))
      · exact .inr (.inr (by simp [lexLt, h]))

/-! ## Algebra of `Stats.Merge` -/

theorem Stats.merge_def (a b : Stats) :
    a.Merge b = ⟨min a.Min b.Min, max a.Max b.Max, a.Sum + b.Sum, a.Count + b.Count⟩ := by
  have h1 : (if b.Min < a.Min then b.Min else a.Min) = min a.Min b.Min := by
    rw [min_def]; split_ifs <;> omega
  have h2 : (if a.Max < b.Max then b.Max else a.Max) = max a.Max b.Max := by
    rw [max_def]; split_ifs <;> omega
  simp [Stats.Merge, h1, h2]

theorem Stats.merge_comm (a b : Stats) : a.Merge b = b.Merge a := by
  simp only [Stats.merge_def, Stats.mk.injEq]
  exact ⟨min_comm _ _, max_comm _ _, add_comm _ _, add_comm _ _⟩

theorem Stats.merge_assoc (a b c : Stats) : (a.Merge b).Merge c = a.Merge (b.Merge c) := by
  simp only [Stats.merge_def, Stats.mk.injEq]
  exact ⟨min_assoc _ _ _, max_assoc _ _ _, add_assoc _ _ _, add_assoc _ _ _⟩

theorem Stats.update_eq_merge (st : Stats) (v : Int) : st.Update v = st.Merge (NewStats v) := rfl

theorem lexLt_ne {a b : List Char} (h : lexLt a b = true) : a ≠ b := by
  intro he; subst he; rw [lexLt_irrefl] at h; cases h

/-! ## Commutativity lemmas for the canonical map operations -/

theorem insertMerge_same (k : List Char) (s₁ s₂ : Stats) :
    ∀ l, insertWith (fun st => st.Merge (s₁.Merge s₂)) k (s₁.Merge s₂) l =
      insertWith (fun st => st.Merge s₂) k s₂ (insertWith (fun st => st.Merge s₁) k s₁ l) := by
  intro l
  induction l with
  | nil => simp [insertWith]
  | cons e t ih =>
    obtain ⟨k', s'⟩ := e
    by_cases h : k = k'
    · subst h; simp [insertWith, Stats.merge_assoc]
    · by_cases hlt : lexLt k k' = true
      · simp [insertWith, h, hlt]
      · simp only [insertWith, if_neg h, if_neg hlt, List.cons.injEq, true_and]
        exact ih

theorem insertMerge_comm (k₁ k₂ : List Char) (s₁ s₂ : Stats) :
    ∀ l, insertWith (fun st => st.Merge s₂) k₂ s₂ (insertWith (fun st => st.Merge s₁) k₁ s₁ l) =
      insertWith (fun st => st.Merge s₁) k₁ s₁ (insertWith (fun st => st.Merge s₂) k₂ s₂ l) := by
  intro l
  induction l with
  | nil =>
    by_cases h12 : k₁ = k₂
    · subst h12; simp [insertWith, Stats.merge_comm s₁ s₂]
    · rcases lexLt_cases k₁ k₂ with h | h | h
      · exact absurd h h12
      · simp [insertWith, h12, Ne.symm h12, h, lexLt_asymm h]
      · simp [insertWith, h12, Ne.symm h12, h, lexLt_asymm h]
  | cons e t ih =>
    obtain ⟨k, s⟩ := e
    by_cases h1 : k₁ = k
    · subst h1
      by_cases h2 : k₂ = k₁
      · subst h2
        simp [insertWith, Stats.merge_assoc, Stats.merge_comm s₁ s₂]
      · rcases lexLt_cases k₂ k₁ with h | h | h
        · exact absurd h h2
        · simp [insertWith, h2, Ne.symm h2, h, lexLt_asymm h]
        · simp [insertWith, h2, Ne.symm h2, h, lexLt_asymm h]
    · by_cases h2 : k₂ = k
      · subst h2
        rcases lexLt_cases k₁ k₂ with h | h | h
        · exact absurd h h1
        · simp [insertWith, h1, Ne.symm h1, h, lexLt_asymm h]
        · simp [insertWith, h1, Ne.symm h1, h, lexLt_asymm h]
      · rcases lexLt_cases k₁ k with ha | ha | ha
        · exact absurd ha h1
        · rcases lexLt_cases k₂ k with hb | hb | hb
          · exact absurd hb h2
          · by_cases h12 : k₁ = k₂
            · subst h12
              simp [insertWith, ha, h1, Stats.merge_comm s₁ s₂]
            · rcases lexLt_cases k₁ k₂ with hc | hc | hc
              · exact absurd hc h12
              · simp [insertWith, ha, hb, h1, h2, h12, Ne.symm h12, hc, lexLt_asymm hc]
              · simp [insertWith, ha, hb, h1, h2, h12, Ne.symm h12, hc, lexLt_asymm hc]
          · have hc : lexLt k₁ k₂ = true := lexLt_trans ha hb
            have h12 : k₁ ≠ k₂ := lexLt_ne hc
            simp [insertWith, ha, hb, h1, h2, h12, Ne.symm h12, hc, lexLt_asymm hc,
              lexLt_asymm hb]
        · rcases lexLt_cases k₂ k with hb | hb | hb
          · exact absurd hb h2
          · have hc : lexLt k₂ k₁ = true := lexLt_trans hb ha
            have h12 : k₂ ≠ k₁ := lexLt_ne hc
            simp [insertWith, ha, hb, h1, h2, h12, Ne.symm h12, hc, lexLt_asymm hc,
              lexLt_asymm ha]
          · simp only [insertWith, if_neg h1, if_neg h2, lexLt_asymm ha, lexLt_asymm hb,
              Bool.false_eq_true, if_false, List.cons.injEq, true_and]
            exact ih

/-- Commutativity of `Calc.Merge` across different entries. -/
theorem Calc.merge_merge_comm (c : Calc) (k₁ k₂ : List Char) (s₁ s₂ : Stats) :
    (c.Merge k₁ s₁).Merge k₂ s₂ = (c.Merge k₂ s₂).Merge k₁ s₁ := by
  simp only [Calc.Merge]
  exact congrArg Calc.mk (insertMerge_comm k₁ k₂ s₁ s₂ c.cities)

/-- Folding a combined statistics value equals folding its parts in
sequence. -/
theorem Calc.merge_merge_same (c : Calc) (k : List Char) (s₁ s₂ : Stats) :
    c.Merge k (s₁.Merge s₂) = (c.Merge k s₁).Merge k s₂ := by
  simp only [Calc.Merge]
  exact congrArg Calc.mk (insertMerge_same k s₁ s₂ c.cities)

/-! ## Folding entry lists into stores -/

theorem mergeAll_nil (c : Calc) : c.mergeAll [] = c := rfl

theorem mergeAll_cons (c : Calc) (e : List Char × Stats) (es : List (List Char × Stats)) :
    c.mergeAll (e :: es) = (c.Merge e.1 e.2).mergeAll es := rfl

theorem mergeAll_append (c : Calc) (es₁ es₂ : List (List Char × Stats)) :
    c.mergeAll (es₁ ++ es₂) = (c.mergeAll es₁).mergeAll es₂ :=
  List.foldl_append _ _ _ _

theorem mergeAll_merge_acc (k : List Char) (s : Stats) :
    ∀ (es : List (List Char × Stats)) (c : Calc),
      (c.Merge k s).mergeAll es = (c.mergeAll es).Merge k s := by
  intro es
  induction es with
  | nil => intro c; rfl
  | cons e t ih =>
    intro c
    rw [mergeAll_cons, mergeAll_cons, Calc.merge_merge_comm]
    exact ih _

theorem mergeAll_cons2 (c : Calc) (k : List Char) (s : Stats) (es : List (List Char × Stats)) :
    c.mergeAll ((k, s) :: es) = (c.Merge k s).mergeAll es := rfl

theorem mergeAll_insert (k : List Char) (s : Stats) :
    ∀ (es : List (List Char × Stats)) (c : Calc),
      c.mergeAll (insertWith (fun st => st.Merge s) k s es) = (c.mergeAll es).Merge k s := by
  intro es
  induction es with
  | nil => intro c; rfl
  | cons e t ih =>
    intro c
    obtain ⟨k', s'⟩ := e
    by_cases h : k = k'
    · subst h
      simp only [insertWith, eq_self_iff_true, if_true]
      rw [mergeAll_cons2, Calc.merge_merge_same, mergeAll_merge_acc, mergeAll_cons2]
    · by_cases hlt : lexLt k k' = true
      · simp only [insertWith, if_neg h, if_pos hlt]
        rw [mergeAll_cons2, mergeAll_cons2, Calc.merge_merge_comm, mergeAll_merge_acc,
          mergeAll_cons2]
      · simp only [insertWith, if_neg h, if_neg hlt]
        rw [mergeAll_cons2, mergeAll_cons2]
        exact ih _

/-- Folding the entries of a canonically-built store is the same as
folding the entries it was built from. -/
theorem mergeAll_canonical (es : List (List Char × Stats)) :
    ∀ c : Calc, c.mergeAll ((Calc.empty.mergeAll es).cities) = c.mergeAll es := by
  induction es using List.reverseRecOn with
  | nil => intro c; rfl
  | append_singleton es e ih =>
    intro c
    rw [mergeAll_append, mergeAll_append]
    have h1 : (Calc.empty.mergeAll es).mergeAll [e] = (Calc.empty.mergeAll es).Merge e.1 e.2 := rfl
    rw [h1]
    have h2 : ((Calc.empty.mergeAll es).Merge e.1 e.2).cities =
        insertWith (fun st => st.Merge e.2) e.1 e.2 (Calc.empty.mergeAll es).cities := rfl
    rw [h2, mergeAll_insert, ih]
    rfl

/-- Folding a permuted entry list yields the same store. -/
theorem mergeAll_perm {es₁ es₂ : List (List Char × Stats)} (h : es₁.Perm es₂) :
    ∀ c : Calc, c.mergeAll es₁ = c.mergeAll es₂ := by
  induction h with
  | nil => intro c; rfl
  | cons x _ ih => intro c; rw [mergeAll_cons, mergeAll_cons]; exact ih _
  | swap x y l =>
    intro c
    rw [mergeAll_cons, mergeAll_cons, mergeAll_cons, mergeAll_cons, Calc.merge_merge_comm]
  | trans _ _ ih₁ ih₂ => intro c; rw [ih₁, ih₂]

theorem MergeParts_foldl (l : List Calc) :
    ∀ acc : Calc,
      l.foldl (fun acc c => acc.mergeAll c.cities) acc =
        acc.mergeAll ((l.map Calc.cities).flatten) := by
  induction l with
  | nil => intro acc; rfl
  | cons c t ih =>
    intro acc
    simp only [List.foldl_cons, List.map_cons, List.flatten_cons]
    rw [ih, mergeAll_append]

/-- The fold `MergeParts` processes exactly the concatenation of all worker entry
lists into a fresh store. -/
theorem MergeParts_def (l : List Calc) :
    MergeParts l = Calc.empty.mergeAll ((l.map Calc.cities).flatten) :=
  MergeParts_foldl l Calc.empty

/-! ## The sorted-store invariant (part_002 `InfoStore`) -/

theorem update_eq_storeStep (s : InfoStore) (name : List Char) (value : Int) :
    s.Update name value = storeStep name (InfoFromItem name value) (fun e => e.Update value) s := rfl

theorem merge_eq_storeStep (s : InfoStore) (info : Info) :
    s.Merge info = storeStep info.Name info (fun e => e.Merge info) s := rfl

theorem storeSearch_le_length (name : List Char) : ∀ l : List Info, storeSearch name l ≤ l.length
  | [] => Nat.le_refl 0
  | e :: es => by
    simp only [storeSearch, List.length_cons]
    split
    · exact Nat.succ_le_succ (storeSearch_le_length name es)
    · exact Nat.zero_le _

theorem storeSearch_take (name : List Char) :
    ∀ l : List Info, ∀ e ∈ l.take (storeSearch name l), lexLt e.Name name = true
  | [], e, he => by simp at he
  | a :: t, e, he => by
    by_cases h : lexLt a.Name name = true
    · simp only [storeSearch, h, if_true, List.take_succ_cons] at he
      rcases List.mem_cons.mp he with rfl | he'
      · exact h
      · exact storeSearch_take name t e he'
    · simp only [storeSearch, h, if_false, List.take_zero] at he
      cases he

theorem storeSearch_head (name : List Char) :
    ∀ l : List Info, storeSearch name l < l.length →
      lexLt (l.getD (storeSearch name l) default).Name name = false
  | [], h => by cases h
  | a :: t, h => by
    by_cases hb : lexLt a.Name name = true
    · simp only [storeSearch, hb, if_true, List.getD_cons_succ] at h ⊢
      exact storeSearch_head name t (Nat.lt_of_succ_lt_succ h)
    · simp only [storeSearch, hb, if_false, List.getD_cons_zero]
      exact Bool.eq_false_iff.mpr hb

theorem getD_head_drop : ∀ (l : List Info) (i : Nat), i < l.length →
    l.drop i = l.getD i default :: l.drop (i + 1)
  | [], i, h => by cases h
  | a :: t, 0, _ => rfl
  | a :: t, i + 1, h => by
    simp only [List.drop_succ_cons, List.getD_cons_succ]
    exact getD_head_drop t i (Nat.lt_of_succ_lt_succ h)

theorem getD_mem : ∀ (l : List Info) (i : Nat), i < l.length → l.getD i default ∈ l
  | [], i, h => by cases h
  | a :: t, 0, _ => List.mem_cons_self a t
  | a :: t, i + 1, h => by
    simp only [List.getD_cons_succ]
    exact List.mem_cons_of_mem a (getD_mem t i (Nat.lt_of_succ_lt_succ h))

theorem pairwise_name_set :
    ∀ (l : List Info) (i : Nat) (e' : Info),
      e'.Name = (l.getD i default).Name →
      l.Pairwise (fun a b => lexLt a.Name b.Name = true) →
      (l.set i e').Pairwise (fun a b => lexLt a.Name b.Name = true)
  | [], _, _, _, _ => by simp
  | a :: t, 0, e', hname, h => by
    simp only [List.getD_cons_zero] at hname
    rw [List.set_cons_zero]
    rw [List.pairwise_cons] at h ⊢
    exact ⟨fun b hb => by rw [hname]; exact h.1 b hb, h.2⟩
  | a :: t, i + 1, e', hname, h => by
    rw [List.set_cons_succ]
    rw [List.pairwise_cons] at h ⊢
    simp only [List.getD_cons_succ] at hname
    by_cases hi : i < t.length
    · refine ⟨?_, pairwise_name_set t i e' hname h.2⟩
      intro b hb
      rcases List.mem_or_eq_of_mem_set hb with hb' | rfl
      · exact h.1 b hb'
      · rw [hname]
        exact h.1 _ (getD_mem t i hi)
    · rw [List.set_eq_of_length_le (Nat.le_of_not_lt hi)]
      exact ⟨h.1, h.2⟩

theorem storeStep_sorted (name : List Char) (fresh : Info) (upd : Info → Info)
    (hfresh : fresh.Name = name) (hupd : ∀ e, (upd e).Name = e.Name)
    (s : InfoStore) (h : s.infos.Pairwise (fun a b => lexLt a.Name b.Name = true)) :
    (storeStep name fresh upd s).infos.Pairwise (fun a b => lexLt a.Name b.Name = true) := by
  obtain ⟨l⟩ := s
  simp only at h
  unfold storeStep
  simp only
  by_cases hend : storeSearch name l = l.length
  · rw [if_pos hend]
    show (l ++ [fresh]).Pairwise _
    rw [List.pairwise_append]
    refine ⟨h, List.pairwise_singleton _ _, ?_⟩
    intro a ha b hb
    rw [List.mem_singleton] at hb
    subst hb
    rw [hfresh]
    have : a ∈ l.take (storeSearch name l) := by rw [hend, List.take_length]; exact ha
    exact storeSearch_take name l a this
  · rw [if_neg hend]
    have hlt : storeSearch name l < l.length :=
      Nat.lt_of_le_of_ne (storeSearch_le_length name l) hend
    by_cases hfound : (l.getD (storeSearch name l) default).Name = name
    · rw [if_pos hfound]
      show (l.set (storeSearch name l) (upd (l.getD (storeSearch name l) default))).Pairwise _
      refine pairwise_name_set l _ _ ?_ h
      rw [hupd]
    · rw [if_neg hfound]
      show (l.take (storeSearch name l) ++ fresh :: l.drop (storeSearch name l)).Pairwise _
      have hdrop := getD_head_drop l (storeSearch name l) hlt
      have hsplit : l = l.take (storeSearch name l) ++ l.drop (storeSearch name l) :=
        (List.take_append_drop _ l).symm
      have hpw : (l.take (storeSearch name l) ++ l.drop (storeSearch name l)).Pairwise
          (fun a b => lexLt a.Name b.Name = true) := by rw [← hsplit]; exact h
      rw [List.pairwise_append] at hpw
      obtain ⟨hpw1, hpw2, hpw3⟩ := hpw
      have hheadlt : lexLt name (l.getD (storeSearch name l) default).Name = true := by
        rcases lexLt_cases name (l.getD (storeSearch name l) default).Name with he | hx | hx
        · exact absurd he.symm hfound
        · exact hx
        · rw [storeSearch_head name l hlt] at hx; cases hx
      rw [List.pairwise_append]
      refine ⟨hpw1, ?_, ?_⟩
      · rw [List.pairwise_cons]
        refine ⟨?_, hpw2⟩
        intro b hb
        rw [hfresh]
        rw [hdrop] at hb
        rcases List.mem_cons.mp hb with rfl | hb'
        · exact hheadlt
        · refine lexLt_trans hheadlt ?_
          rw [hdrop] at hpw2
          rw [List.pairwise_cons] at hpw2
          exact hpw2.1 b hb'
      · intro a ha b hb
        rcases List.mem_cons.mp hb with rfl | hb'
        · rw [hfresh]
          exact storeSearch_take name l a ha
        · exact hpw3 a ha b hb'

theorem applyOp_sorted (s : InfoStore) (op : StoreOp) (h : StoreSorted s) :
    StoreSorted (applyOp s op) := by
  cases op with
  | upd name value =>
    show StoreSorted (s.Update name value)
    rw [update_eq_storeStep]
    exact storeStep_sorted name (InfoFromItem name value) (fun e => e.Update value) rfl
      (fun e => rfl) s h
  | mrg info =>
    show StoreSorted (s.Merge info)
    rw [merge_eq_storeStep]
    exact storeStep_sorted info.Name info (fun e => e.Merge info) rfl (fun e => rfl) s h

/-! ## Search lemmas for `firstIdx` and `lastIdx` -/

theorem firstIdx_eq_none_iff (c : Char) : ∀ l : List Char, firstIdx c l = none ↔ c ∉ l
  | [] => by simp [firstIdx]
  | a :: as => by
    rcases eq_or_ne a c with rfl | h
    · simp [firstIdx]
    · simp [firstIdx, h, Ne.symm h, firstIdx_eq_none_iff c as]

theorem firstIdx_append_cons (c : Char) :
    ∀ A : List Char, c ∉ A → ∀ B, firstIdx c (A ++ c :: B) = some A.length
  | [], _, B => by simp [firstIdx]
  | a :: as, h, B => by
    have ha : a ≠ c := fun he => h (he ▸ List.mem_cons_self a as)
    have h' : c ∉ as := fun hm => h (List.mem_cons_of_mem a hm)
    show firstIdx c (a :: (as ++ c :: B)) = some (as.length + 1)
    simp [firstIdx, ha, firstIdx_append_cons c as h' B]

theorem firstIdx_lt_length (c : Char) :
    ∀ l : List Char, ∀ j, firstIdx c l = some j → j < l.length
  | [], j, h => by simp [firstIdx] at h
  | a :: as, j, h => by
    rcases eq_or_ne a c with rfl | ha
    · simp only [firstIdx, eq_self_iff_true, if_true, Option.some.injEq] at h
      simp only [List.length_cons]
      omega
    · simp only [firstIdx, if_neg ha] at h
      rcases ho : firstIdx c as with _ | j'
      · rw [ho] at h; cases h
      · rw [ho] at h
        simp only [Option.map_some', Option.some.injEq] at h
        have := firstIdx_lt_length c as j' ho
        simp only [List.length_cons]
        omega

theorem lastIdx_eq_none_iff (c : Char) : ∀ l : List Char, lastIdx c l = none ↔ c ∉ l
  | [] => by simp [lastIdx]
  | a :: as => by
    rcases ho : lastIdx c as with _ | j
    · have hnm : c ∉ as := (lastIdx_eq_none_iff c as).mp ho
      rcases eq_or_ne a c with rfl | h
      · simp [lastIdx, ho]
      · simp [lastIdx, h, Ne.symm h, ho, hnm]
    · have hmem : c ∈ as := by
        by_contra hm
        rw [← lastIdx_eq_none_iff c as] at hm
        rw [hm] at ho
        cases ho
      simp [lastIdx, ho, hmem]

theorem lastIdx_append_right (c : Char) (A : List Char) :
    ∀ B : List Char, c ∉ B → lastIdx c (A ++ B) = lastIdx c A := by
  intro B hB
  induction A with
  | nil =>
    show lastIdx c B = lastIdx c []
    rw [(lastIdx_eq_none_iff c B).mpr hB]
    rfl
  | cons a as ih =>
    show lastIdx c (a :: (as ++ B)) = _
    simp only [lastIdx, ih]

theorem lastIdx_concat (c : Char) : ∀ A : List Char, lastIdx c (A ++ [c]) = some A.length
  | [] => by simp [lastIdx]
  | a :: as => by
    show lastIdx c (a :: (as ++ [c])) = some (as.length + 1)
    simp only [lastIdx, lastIdx_concat c as]

/-! ## Digit arithmetic -/

theorem digit_toNat_bounds {c : Char} (h : c.isDigit = true) : 48 ≤ c.toNat ∧ c.toNat ≤ 57 := by
  simp [Char.isDigit] at h
  exact h

theorem byteSubZero_digit {c : Char} (h : c.isDigit = true) : byteSubZero c = c.toNat - 48 := by
  have hb := digit_toNat_bounds h
  unfold byteSubZero
  omega

theorem digit_ne {c : Char} (h : c.isDigit = true) :
    c ≠ '-' ∧ c ≠ '.' ∧ c ≠ ';' ∧ c ≠ '\n' := by
  have hb := digit_toNat_bounds h
  refine ⟨?_, ?_, ?_, ?_⟩ <;> intro he <;> subst he <;> revert hb <;> decide

theorem foldl_digits (ds : List Char) (hd : ∀ c ∈ ds, c.isDigit = true) :
    ∀ k : Nat, ds.foldl (fun f c => f * 10 + (byteSubZero c : Int)) (k : Int) =
      ((ds.foldl (fun n c => n * 10 + (c.toNat - 48)) k : Nat) : Int) := by
  induction ds with
  | nil => intro k; simp
  | cons c cs ih =>
    intro k
    have hc := hd c (List.mem_cons_self c cs)
    have hb := digit_toNat_bounds hc
    simp only [List.foldl_cons]
    rw [byteSubZero_digit hc]
    have hcast : (k : Int) * 10 + ((c.toNat - 48 : Nat) : Int) =
        ((k * 10 + (c.toNat - 48) : Nat) : Int) := by
      push_cast [Nat.cast_sub hb.1]
      ring
    rw [hcast]
    exact ih (fun x hx => hd x (List.mem_cons_of_mem c hx)) _

/-! ## ValueToFloat facts -/

theorem valueToFloat_ne_sep (v : List Char) : ValueToFloat v ≠ .error .SeparatorNotFound := by
  simp only [ValueToFloat]
  split
  · split_ifs <;> simp
  · split_ifs <;> simp

/-! ## Claim theorems: statistics algebra and store invariants -/

/-- Claim C3: Statistics merge (min of minima, max of maxima, sums and
counts added) is associative and commutative, and consequently the
global store `MergeParts` builds from the per-worker stores is the same
for every order (any permutation of the worker-store list) and every
grouping (merging two groups separately and then merging the two partial
results). -/
theorem statsMerge_assoc_comm_mergeParts_order_free :
    (∀ a b c : Stats, (a.Merge b).Merge c = a.Merge (b.Merge c)) ∧
    (∀ a b : Stats, a.Merge b = b.Merge a) ∧
    (∀ l l' : List Calc, l.Perm l' → MergeParts l = MergeParts l') ∧
    (∀ l₁ l₂ : List Calc, MergeParts (l₁ ++ l₂) = MergeParts [MergeParts l₁, MergeParts l₂]) := by
  refine ⟨Stats.merge_assoc, Stats.merge_comm, ?_, ?_⟩
  · intro l l' h
    rw [MergeParts_def, MergeParts_def]
    exact mergeAll_perm ((h.map Calc.cities).flatten) Calc.empty
  · intro l₁ l₂
    have h2 : MergeParts [MergeParts l₁, MergeParts l₂] =
        (Calc.empty.mergeAll (MergeParts l₁).cities).mergeAll (MergeParts l₂).cities := rfl
    rw [h2, MergeParts_def, MergeParts_def, MergeParts_def]
    rw [mergeAll_canonical]
    rw [mergeAll_canonical]
    rw [List.map_append, List.flatten_append, mergeAll_append]

/-- Witness for the order-independence part of C3 on two concrete
one-entry worker stores. -/
theorem statsMerge_order_free_witness :
    MergeParts [Calc.empty.Update "B".data 20, Calc.empty.Update "A".data 10] =
      MergeParts [Calc.empty.Update "A".data 10, Calc.empty.Update "B".data 20] :=
  statsMerge_assoc_comm_mergeParts_order_free.2.2.1 _ _ (by decide)

/-- Claim C5: every store reachable from the empty store by a sequence
of `Update` and `Merge` operations has its entries in strictly ascending
lexicographic key order, and each key appears at most once. -/
theorem infoStore_sorted_after_ops (ops : List StoreOp) :
    StoreSorted (applyOps ops) ∧ ((applyOps ops).infos.map Info.Name).Nodup := by
  have hsorted : ∀ (ops' : List StoreOp) (s : InfoStore),
      StoreSorted s → StoreSorted (ops'.foldl applyOp s) := by
    intro ops'
    induction ops' with
    | nil => intro s h; exact h
    | cons op t ih => intro s h; exact ih _ (applyOp_sorted s op h)
  have hs : StoreSorted (applyOps ops) := hsorted ops ⟨[]⟩ List.Pairwise.nil
  refine ⟨hs, ?_⟩
  have hpw : ((applyOps ops).infos.map Info.Name).Pairwise (fun a b => a ≠ b) := by
    rw [List.pairwise_map]
    exact hs.imp (fun hab => lexLt_ne hab)
  exact hpw

/-! ## Claim theorems: parsing -/

/-- Claim C6: on the fixed decimal shape (optional leading minus, one or
more integer digits, a decimal point, exactly one fractional digit)
`ParseFloat` accumulates the integer digits by repeated
multiply-by-ten-and-add (`digitsVal`), adds the fractional digit divided
by ten, and applies the sign last.  In the exact tenths representation
the float64 `sign * (acc + frac/10)` is the integer
`sign * (acc * 10 + frac)`. -/
theorem parseFloat_fixed_shape (neg : Bool) (ds : List Char) (d : Char)
    (hne : ds ≠ []) (hds : ∀ c ∈ ds, c.isDigit = true) (hd : d.isDigit = true) :
    ParseFloat ((if neg then ['-'] else []) ++ ds ++ ['.', d]) =
      (if neg then -1 else 1) * ((digitsVal ds : Int) * 10 + ((d.toNat - 48 : Nat) : Int)) := by
  obtain ⟨c, cs, rfl⟩ := List.exists_cons_of_ne_nil hne
  have hcdig := hds c (List.mem_cons_self c cs)
  have hcne : c ≠ '-' := (digit_ne hcdig).1
  have hfold := foldl_digits (c :: cs) hds 0
  rw [show ((0 : Nat) : Int) = (0 : Int) by simp] at hfold
  have hlast : (c :: (cs ++ ['.', d])).getLastD 'x' = d := by
    rw [show c :: (cs ++ ['.', d]) = (c :: (cs ++ ['.'])) ++ [d] by simp]
    exact List.getLastD_concat _ _ _
  have htake : List.take (cs.length + 1) (c :: (cs ++ ['.', d])) = c :: cs := by
    rw [show c :: (cs ++ ['.', d]) = (c :: cs) ++ ['.', d] from rfl]
    exact List.take_left' (by simp)
  cases neg with
  | false =>
    have hval : ((if (false : Bool) then ['-'] else []) ++ (c :: cs) ++ ['.', d]) =
        c :: (cs ++ ['.', d]) := by simp
    rw [hval]
    simp only [ParseFloat]
    have hh : (c :: (cs ++ ['.', d])).headD 'x' = c := rfl
    rw [hh, if_neg hcne, if_neg hcne]
    have hlen : (c :: (cs ++ ['.', d])).length - 2 = cs.length + 1 := by simp
    rw [hlen, htake, hlast, byteSubZero_digit hd, hfold]
    simp [digitsVal]
  | true =>
    have hval : ((if (true : Bool) then ['-'] else []) ++ (c :: cs) ++ ['.', d]) =
        '-' :: (c :: (cs ++ ['.', d])) := by simp
    rw [hval]
    simp only [ParseFloat]
    have hh : ('-' :: (c :: (cs ++ ['.', d]))).headD 'x' = '-' := rfl
    rw [hh, if_pos rfl, if_pos rfl]
    have hdrop : List.drop 1 ('-' :: (c :: (cs ++ ['.', d]))) = c :: (cs ++ ['.', d]) := rfl
    rw [hdrop]
    have hlen : (c :: (cs ++ ['.', d])).length - 2 = cs.length + 1 := by simp
    have hlast2 : ('-' :: (c :: (cs ++ ['.', d]))).getLastD 'x' = d := by
      rw [show '-' :: (c :: (cs ++ ['.', d])) = ('-' :: (c :: (cs ++ ['.']))) ++ [d] by simp]
      exact List.getLastD_concat _ _ _
    rw [hlen, htake, hlast2, byteSubZero_digit hd, hfold]
    simp [digitsVal]

/-- Witness for C6 at the literal `-12.3`. -/
theorem parseFloat_fixed_shape_witness :
    ParseFloat ((if true then ['-'] else []) ++ "12".data ++ ['.', '3']) =
      (if true then -1 else 1) * ((digitsVal "12".data : Int) * 10 + (('3'.toNat - 48 : Nat) : Int)) :=
  parseFloat_fixed_shape true "12".data '3' (by decide) (by decide) (by decide)

/-- Claim C7: the part_002 line parser fails with the missing-separator
error exactly when the span contains no `';'`; when a separator exists
at first position `sep` it returns the bytes before it as the key and
feeds the bytes after it to the numeric conversion.  The part_003
variant panics (`none`) exactly when the span contains no `';'`. -/
theorem parseLine_separator_contract (line : List Char) :
    (ParseLine2 line = .error .SeparatorNotFound ↔ ';' ∉ line) ∧
    (∀ sep, firstIdx ';' line = some sep →
      ParseLine2 line = (ValueToFloat (line.drop (sep + 1))).map (fun v => (line.take sep, v))) ∧
    (ParseLine3 line = none ↔ ';' ∉ line) := by
  refine ⟨?_, ?_, ?_⟩
  · rcases h : firstIdx ';' line with _ | sep
    · unfold ParseLine2
      rw [h]
      simp [(firstIdx_eq_none_iff ';' line).mp h]
    · have hmem : ';' ∈ line := by
        by_contra hm
        rw [(firstIdx_eq_none_iff ';' line).mpr hm] at h
        cases h
      unfold ParseLine2
      rw [h]
      simp only [hmem, not_true_eq_false, iff_false]
      intro hcon
      rcases hv : ValueToFloat (line.drop (sep + 1)) with e | v
      · rw [hv] at hcon
        simp only [Except.map] at hcon
        injection hcon with he
        rw [he] at hv
        exact valueToFloat_ne_sep _ hv
      · rw [hv] at hcon
        simp only [Except.map] at hcon
        exact Except.noConfusion hcon
  · intro sep h
    unfold ParseLine2
    rw [h]
  · rcases h : lastIdx ';' line with _ | sep
    · unfold ParseLine3
      rw [h]
      simp [(lastIdx_eq_none_iff ';' line).mp h]
    · have hmem : ';' ∈ line := by
        by_contra hm
        rw [(lastIdx_eq_none_iff ';' line).mpr hm] at h
        cases h
      unfold ParseLine3
      rw [h]
      simp [hmem]

/-- Witness for C7's conditional part at the record `A;1.0`. -/
theorem parseLine_separator_contract_witness :
    ParseLine2 "A;1.0".data =
      (ValueToFloat ("A;1.0".data.drop 2)).map (fun v => ("A;1.0".data.take 1, v)) :=
  (parseLine_separator_contract "A;1.0".data).2.1 1 (by decide)

/-! ## Claim theorems: trailing spans, EOF carry, read errors -/

theorem handlePage2F_trailing :
    ∀ (n : Nat) (store : InfoStore) (buf : List Char), buf.length < n →
      (buf = [] ∨ ∃ p, buf = p ++ ['\n']) → ∃ e, handlePage2F store n buf = .error e := by
  intro n
  induction n with
  | zero => intro store buf h _; omega
  | succ n ih =>
    intro store buf hlen hshape
    rcases hshape with rfl | ⟨p, rfl⟩
    · exact ⟨.SeparatorNotFound, rfl⟩
    · have hmem : '\n' ∈ p ++ ['\n'] := by simp
      rcases hf : firstIdx '\n' (p ++ ['\n']) with _ | le
      · rw [firstIdx_eq_none_iff] at hf
        exact absurd hmem hf
      · have hle : le < (p ++ ['\n']).length := firstIdx_lt_length _ _ _ hf
        have hlen2 : (p ++ ['\n']).length = p.length + 1 := by simp
        simp only [handlePage2F, hf]
        rcases hh : HandleLine2 store ((p ++ ['\n']).take le) with e | s'
        · exact ⟨e, rfl⟩
        · by_cases hcase : le = p.length
          · subst hcase
            have hdrop : (p ++ ['\n']).drop (p.length + 1) = [] := by
              rw [← hlen2, List.drop_length]
            rw [hdrop]
            refine ih s' [] ?_ (Or.inl rfl)
            simp only [List.length_nil]
            omega
          · have hle' : le < p.length := by omega
            have hdrop : (p ++ ['\n']).drop (le + 1) = p.drop (le + 1) ++ ['\n'] :=
              List.drop_append_of_le_length (by omega)
            rw [hdrop]
            refine ih s' _ ?_ (Or.inr ⟨p.drop (le + 1), rfl⟩)
            simp only [List.length_append, List.length_drop, List.length_cons, List.length_nil]
            omega

/-- Claim C8, amended: part_002 `HandlePage` unconditionally parses the
span remaining after the last line terminator, so a Page whose trailing
span is empty (empty content, or content ending in a terminator) always
FAILS — the empty span reaches the line parser and yields the
missing-separator error — instead of being treated as "no further
records". -/
theorem handlePage_empty_trailing_fails (store : InfoStore) (content : List Char)
    (h : content = [] ∨ ∃ p, content = p ++ ['\n']) :
    ∃ e, HandlePage2 store content = .error e :=
  handlePage2F_trailing (content.length + 1) store content (Nat.lt_succ_self _) h

/-- Counterexample to C8 as stated: the page content `A;1.0\n` has an
empty span after its last terminator, yet part_002 `HandlePage` reports
the missing-separator error rather than succeeding. -/
theorem handlePage_empty_trailing_cx :
    HandlePage2 ⟨[]⟩ "A;1.0\n".data = .error .SeparatorNotFound := by decide

/-- Witness for the amended C8 at the empty page content. -/
theorem handlePage_empty_trailing_fails_witness :
    ∃ e, HandlePage2 ⟨[]⟩ [] = .error e :=
  handlePage_empty_trailing_fails ⟨[]⟩ [] (Or.inl rfl)

/-- Claim C2 evaluated at its failing input: with page size 4096 and
`os.File` reads, the input `A;1.0\nX;1.2` (final record unterminated)
loses its final record — `ReadPages` carries `X;1.2` out of the first
page and then returns at EOF without flushing the carry — while the
terminated input `A;1.0\nX;1.2\n` keeps it; the resulting Statistics
and outputs differ. -/
theorem reader_discards_final_carry :
    ReadPagesGo 4096 (fun _ => []) "A;1.0\nX;1.2".data = ["A;1.0".data] ∧
    PipelineOut [ReadPagesGo 4096 (fun _ => []) "A;1.0\nX;1.2".data] =
      some "\x7bA=1.0/1.0/1.0\x7d\n" ∧
    PipelineOut [ReadPagesGo 4096 (fun _ => []) "A;1.0\nX;1.2\n".data] =
      some "\x7bA=1.0/1.0/1.0,X=1.2/1.2/1.2\x7d\n" :=
  ⟨by decide, by decide, by decide⟩

/-- Claim C4 evaluated at its failing input: the part_002 reader's error
check has no non-EOF branch, so after a failing read (`n = 0`, error
swallowed) it still sends a page — exposing `pageSize` stale pool bytes,
since no terminator is found and `p.n` keeps its reset value — and
keeps looping: two consecutive failing reads yield two such pages and
no abort, and the reader has no path that surfaces the error. -/
theorem solveReader_continues_after_read_error :
    solveRead2 8 (fun _ => "junkjunk".data) [ReadEv.fail, ReadEv.fail] 0 [] =
      ["junkjunk".data, "junkjunk".data] := by decide

/-! ## Claim theorems: equivalence of the two line parsers -/

theorem all_isDigit_of_forall {l : List Char} (h : ∀ c ∈ l, c.isDigit = true) :
    l.all Char.isDigit = true := by
  rw [List.all_eq_true]
  exact h

theorem sep_not_mem_val (neg : Bool) (ds : List Char) (d : Char)
    (hds : ∀ c ∈ ds, c.isDigit = true) (hd : d.isDigit = true) :
    ';' ∉ (if neg then ['-'] else []) ++ ds ++ ['.', d] := by
  intro hm
  rcases List.mem_append.mp hm with hm1 | hm2
  · rcases List.mem_append.mp hm1 with hm0 | hmds
    · cases neg with
      | false => simp at hm0
      | true =>
        rw [if_pos rfl, List.mem_singleton] at hm0
        exact absurd hm0 (by decide)
    · have := hds ';' hmds
      exact absurd this (by decide)
  · rcases List.mem_cons.mp hm2 with he | he
    · exact absurd he (by decide)
    · rw [List.mem_singleton] at he
      rw [← he] at hd
      exact absurd hd (by decide)

theorem valueToFloat_fixed_shape (neg : Bool) (ds : List Char) (d : Char)
    (hne : ds ≠ []) (hds : ∀ c ∈ ds, c.isDigit = true) (hd : d.isDigit = true) :
    ValueToFloat ((if neg then ['-'] else []) ++ ds ++ ['.', d]) =
      .ok (ParseFloat ((if neg then ['-'] else []) ++ ds ++ ['.', d])) := by
  rw [parseFloat_fixed_shape neg ds d hne hds hd]
  obtain ⟨c, cs, rfl⟩ := List.exists_cons_of_ne_nil hne
  have hcdig := hds c (List.mem_cons_self c cs)
  have hcne : c ≠ '-' := (digit_ne hcdig).1
  have hdot : '.' ∉ c :: cs := by
    intro hm
    have := hds '.' hm
    exact absurd this (by decide)
  have hidx : firstIdx '.' (c :: (cs ++ ['.', d])) = some (cs.length + 1) := by
    have h0 := firstIdx_append_cons '.' (c :: cs) hdot [d]
    simpa using h0
  have htake : List.take (cs.length + 1) (c :: (cs ++ ['.', d])) = c :: cs := by
    rw [show c :: (cs ++ ['.', d]) = (c :: cs) ++ ['.', d] from rfl]
    exact List.take_left' (by simp)
  have hdrop2 : List.drop (cs.length + 1 + 1) (c :: (cs ++ ['.', d])) = [d] := by
    rw [show c :: (cs ++ ['.', d]) = (c :: cs ++ ['.']) ++ [d] by simp]
    exact List.drop_left' (by simp)
  have hfdval : digitsVal [d] = d.toNat - 48 := by simp [digitsVal]
  have hcond : (c :: cs ≠ [] ∧ ([d] : List Char).length = 1 ∧
      (c :: cs).all Char.isDigit = true ∧ ([d] : List Char).all Char.isDigit = true) :=
    ⟨List.cons_ne_nil c cs, rfl, all_isDigit_of_forall hds,
      all_isDigit_of_forall (fun x hx => by rw [List.mem_singleton] at hx; rw [hx]; exact hd)⟩
  cases neg with
  | false =>
    have hval : ((if (false : Bool) then ['-'] else []) ++ (c :: cs) ++ ['.', d]) =
        c :: (cs ++ ['.', d]) := by simp
    rw [hval]
    have hh : (c :: (cs ++ ['.', d])).headD 'x' = c := rfl
    simp only [ValueToFloat, hh, if_neg hcne, hidx, htake, hdrop2, if_pos hcond, hfdval]
    simp only [Bool.false_eq_true, if_false]
  | true =>
    have hval : ((if (true : Bool) then ['-'] else []) ++ (c :: cs) ++ ['.', d]) =
        '-' :: (c :: (cs ++ ['.', d])) := by simp
    rw [hval]
    have hh : ('-' :: (c :: (cs ++ ['.', d]))).headD 'x' = '-' := rfl
    have hdrop1 : List.drop 1 ('-' :: (c :: (cs ++ ['.', d]))) = c :: (cs ++ ['.', d]) := rfl
    simp only [ValueToFloat, hh, eq_self_iff_true, if_true, hdrop1, hidx, htake, hdrop2,
      if_pos hcond, hfdval]

/-- Claim C9: on a record span containing exactly one `';'` — its key
is `';'`-free and its value has the fixed decimal shape — the separator
located from the end (`bytes.LastIndexByte`, part_003) and from the
front (`bytes.IndexByte`, part_002) coincide, so both `ParseLine`
variants split the span into the same key and numeric literal and
return the same key and numeric value. -/
theorem parseLine_variants_agree (key : List Char) (neg : Bool) (ds : List Char) (d : Char)
    (hkey : ';' ∉ key) (hne : ds ≠ []) (hds : ∀ c ∈ ds, c.isDigit = true)
    (hd : d.isDigit = true) :
    firstIdx ';' (key ++ ';' :: ((if neg then ['-'] else []) ++ ds ++ ['.', d])) =
        some key.length ∧
    lastIdx ';' (key ++ ';' :: ((if neg then ['-'] else []) ++ ds ++ ['.', d])) =
        some key.length ∧
    ParseLine2 (key ++ ';' :: ((if neg then ['-'] else []) ++ ds ++ ['.', d])) =
        .ok (key, ParseFloat ((if neg then ['-'] else []) ++ ds ++ ['.', d])) ∧
    ParseLine3 (key ++ ';' :: ((if neg then ['-'] else []) ++ ds ++ ['.', d])) =
        some (key, ParseFloat ((if neg then ['-'] else []) ++ ds ++ ['.', d])) := by
  have hvns := sep_not_mem_val neg ds d hds hd
  have hfirst : firstIdx ';' (key ++ ';' :: ((if neg then ['-'] else []) ++ ds ++ ['.', d])) =
      some key.length := firstIdx_append_cons ';' key hkey _
  have hlast : lastIdx ';' (key ++ ';' :: ((if neg then ['-'] else []) ++ ds ++ ['.', d])) =
      some key.length := by
    rw [show key ++ ';' :: ((if neg then ['-'] else []) ++ ds ++ ['.', d]) =
      (key ++ [';']) ++ ((if neg then ['-'] else []) ++ ds ++ ['.', d]) by simp]
    rw [lastIdx_append_right ';' (key ++ [';']) _ hvns]
    exact lastIdx_concat ';' key
  have htake : List.take key.length (key ++ ';' :: ((if neg then ['-'] else []) ++ ds ++ ['.', d])) =
      key := List.take_left' rfl
  have hdrop : List.drop (key.length + 1)
      (key ++ ';' :: ((if neg then ['-'] else []) ++ ds ++ ['.', d])) =
      (if neg then ['-'] else []) ++ ds ++ ['.', d] := by
    rw [show key ++ ';' :: ((if neg then ['-'] else []) ++ ds ++ ['.', d]) =
      (key ++ [';']) ++ ((if neg then ['-'] else []) ++ ds ++ ['.', d]) by simp]
    exact List.drop_left' (by simp)
  refine ⟨hfirst, hlast, ?_, ?_⟩
  · unfold ParseLine2
    simp only [hfirst, hdrop, valueToFloat_fixed_shape neg ds d hne hds hd, htake]
    rfl
  · unfold ParseLine3
    simp only [hlast, hdrop, htake]

/-- Witness for C9 at the record `A;-1.0`. -/
theorem parseLine_variants_agree_witness :
    firstIdx ';' ("A".data ++ ';' :: ((if true then ['-'] else []) ++ "1".data ++ ['.', '0'])) =
        some "A".data.length ∧
    lastIdx ';' ("A".data ++ ';' :: ((if true then ['-'] else []) ++ "1".data ++ ['.', '0'])) =
        some "A".data.length ∧
    ParseLine2 ("A".data ++ ';' :: ((if true then ['-'] else []) ++ "1".data ++ ['.', '0'])) =
        .ok ("A".data, ParseFloat ((if true then ['-'] else []) ++ "1".data ++ ['.', '0'])) ∧
    ParseLine3 ("A".data ++ ';' :: ((if true then ['-'] else []) ++ "1".data ++ ['.', '0'])) =
        some ("A".data, ParseFloat ((if true then ['-'] else []) ++ "1".data ++ ['.', '0'])) :=
  parseLine_variants_agree "A".data true "1".data '0' (by decide) (by decide) (by decide)
    (by decide)

/-! ## Reader correctness: line structure of the produced pages -/

theorem unparse_cons (l : List Char) (ls : List (List Char)) :
    unparse (l :: ls) = (l ++ ['\n']) ++ unparse ls := by
  simp [unparse]

theorem unparse_cons' (l : List Char) (ls : List (List Char)) :
    unparse (l :: ls) = l ++ '\n' :: unparse ls := by
  simp [unparse]

theorem unparse_eq_interNL : ∀ ls : List (List Char), ls ≠ [] → unparse ls = interNL ls ++ ['\n']
  | [], h => absurd rfl h
  | [l], _ => by simp [unparse, interNL]
  | l :: x :: xs, _ => by
    rw [unparse_cons', unparse_eq_interNL (x :: xs) (by simp)]
    rw [show interNL (l :: x :: xs) = l ++ '\n' :: interNL (x :: xs) from rfl]
    simp

theorem mem_cons_take : ∀ (A X : List Char) (c : Char) (n : Nat),
    A.length < n → c ∈ (A ++ c :: X).take n
  | [], X, c, n, h => by
    cases n with
    | zero => omega
    | succ m =>
      show c ∈ (c :: X).take (m + 1)
      rw [List.take_succ_cons]
      exact List.mem_cons_self c _
  | a :: A', X, c, n, h => by
    cases n with
    | zero => omega
    | succ m =>
      show c ∈ (a :: (A' ++ c :: X)).take (m + 1)
      rw [List.take_succ_cons]
      exact List.mem_cons_of_mem a (mem_cons_take A' X c m (Nat.lt_of_succ_lt_succ h))

theorem take_take_len (rem : List Char) (space : Nat) :
    rem.take ((rem.take space).length) = rem.take space := by
  rw [List.length_take]
  rcases le_total space rem.length with h | h
  · rw [Nat.min_eq_left h]
  · rw [Nat.min_eq_right h, List.take_of_length_le h, List.take_of_length_le (le_refl _)]

theorem take_append_drop_len (rem : List Char) (space : Nat) :
    rem.take space ++ rem.drop ((rem.take space).length) = rem := by
  have h := List.take_append_drop ((rem.take space).length) rem
  rw [take_take_len] at h
  exact h

/-- Splitting a prefix of a line-terminated text at its last terminator:
a prefix `P` containing at least one terminator consists of the first
`t ≥ 1` complete terminated lines followed by a terminator-free rest. -/
theorem split_unparse : ∀ (lines : List (List Char)), (∀ l ∈ lines, '\n' ∉ l) →
    ∀ P Q, P ++ Q = unparse lines → '\n' ∈ P →
    ∃ t rest, 1 ≤ t ∧ P = unparse (lines.take t) ++ rest ∧ '\n' ∉ rest ∧
      rest ++ Q = unparse (lines.drop t)
  | [], _, P, Q, heq, hnl => by
    have : P = [] := (List.append_eq_nil.mp heq).1
    rw [this] at hnl
    cases hnl
  | l :: ls, hl, P, Q, heq, hnl => by
    have hlnl : '\n' ∉ l := hl l (List.mem_cons_self _ _)
    rw [unparse_cons] at heq
    rcases List.append_eq_append_iff.mp heq with ⟨a', ha1, ha2⟩ | ⟨c', hc1, hc2⟩
    · have hP : P = (l ++ ['\n']).take P.length := by
        rw [ha1, List.take_left]
      by_cases hlen : P.length ≤ l.length
      · exfalso
        rw [hP, List.take_append_of_le_length hlen] at hnl
        exact hlnl (List.mem_of_mem_take hnl)
      · have hlen2 : P.length + a'.length = l.length + 1 := by
          have := congrArg List.length ha1
          simp at this
          omega
        have ha0 : a' = [] := List.length_eq_zero.mp (by omega)
        rw [ha0, List.append_nil] at ha1
        refine ⟨1, [], le_refl 1, ?_, by simp, ?_⟩
        · rw [show (l :: ls).take 1 = [l] from rfl, show unparse [l] = l ++ ['\n'] by simp [unparse]]
          rw [List.append_nil, ← ha1]
        · rw [show (l :: ls).drop 1 = ls from rfl, List.nil_append, ha2, ha0, List.nil_append]
    · by_cases hc : '\n' ∈ c'
      · obtain ⟨t', rest, ht1, hce, hrn, hrq⟩ :=
          split_unparse ls (fun x hx => hl x (List.mem_cons_of_mem l hx)) c' Q hc2.symm hc
        refine ⟨t' + 1, rest, by omega, ?_, hrn, ?_⟩
        · rw [show (l :: ls).take (t' + 1) = l :: ls.take t' from rfl, unparse_cons,
            hc1, hce]
          simp [List.append_assoc]
        · rw [show (l :: ls).drop (t' + 1) = ls.drop t' from rfl]
          exact hrq
      · refine ⟨1, c', le_refl 1, ?_, hc, ?_⟩
        · rw [show (l :: ls).take 1 = [l] from rfl, show unparse [l] = l ++ ['\n'] by simp [unparse]]
          exact hc1
        · rw [show (l :: ls).drop 1 = ls from rfl]
          exact hc2.symm

/-! ## Page segmentation equals the page's lines -/

theorem lineEndIndex_no_nl {b : List Char} (h : '\n' ∉ b) : lineEndIndex b = none := by
  unfold lineEndIndex
  rw [(firstIdx_eq_none_iff _ _).mpr (fun hm => h (List.mem_of_mem_drop hm))]
  rfl

theorem lineEndIndex_at (l : List Char) (R : List Char) (hnl : '\n' ∉ l) (h5 : 5 ≤ l.length) :
    lineEndIndex (l ++ '\n' :: R) = some l.length := by
  unfold lineEndIndex
  have hdrop : (l ++ '\n' :: R).drop 5 = l.drop 5 ++ '\n' :: R :=
    List.drop_append_of_le_length h5
  rw [hdrop, firstIdx_append_cons '\n' (l.drop 5) (fun hm => hnl (List.mem_of_mem_drop hm)) R]
  simp only [Option.map_some', List.length_drop, Option.some.injEq]
  omega

theorem pageSegs_interNL : ∀ (ls : List (List Char)), ls ≠ [] →
    (∀ l ∈ ls, '\n' ∉ l ∧ 5 ≤ l.length) →
    ∀ fuel, (interNL ls).length < fuel → pageSegs fuel (interNL ls) = ls
  | [], h, _, _, _ => absurd rfl h
  | [l], _, hl, fuel, hf => by
    have hnl := (hl l (List.mem_cons_self _ _)).1
    cases fuel with
    | zero => omega
    | succ f =>
      show pageSegs (f + 1) l = [l]
      simp only [pageSegs, lineEndIndex_no_nl hnl]
  | l :: x :: xs, _, hl, fuel, hf => by
    have hnl := (hl l (List.mem_cons_self _ _)).1
    have h5 := (hl l (List.mem_cons_self _ _)).2
    have hI : interNL (l :: x :: xs) = l ++ '\n' :: interNL (x :: xs) := rfl
    cases fuel with
    | zero => omega
    | succ f =>
      rw [hI] at hf ⊢
      have hIlen : (l ++ '\n' :: interNL (x :: xs)).length =
          l.length + 1 + (interNL (x :: xs)).length := by
        simp
        omega
      simp only [pageSegs, lineEndIndex_at l _ hnl h5]
      rw [List.take_left' rfl]
      rw [show List.drop (l.length + 1) (l ++ '\n' :: interNL (x :: xs)) = interNL (x :: xs) by
        rw [show l ++ '\n' :: interNL (x :: xs) = (l ++ ['\n']) ++ interNL (x :: xs) by simp]
        exact List.drop_left' (by simp)]
      rw [pageSegs_interNL (x :: xs) (by simp)
        (fun y hy => hl y (List.mem_cons_of_mem l hy)) f (by omega)]

theorem segsOf_interNL (ls : List (List Char)) (hne : ls ≠ [])
    (hl : ∀ l ∈ ls, '\n' ∉ l ∧ 5 ≤ l.length) : segsOf (interNL ls) = ls :=
  pageSegs_interNL ls hne hl _ (Nat.lt_succ_self _)

/-! ## The reader produces exactly the input's lines -/

theorem readLoop_step (ps : Nat) (stale : Nat → List Char) (f k : Nat)
    (carry rem : List Char) (hne : ¬(rem.take (ps - carry.length)).length = 0)
    {i : Nat} (hl : lastIdx '\n' (carry ++ rem.take (ps - carry.length)) = some i) :
    readLoop ps stale (f + 1) k carry rem =
      ((carry ++ rem.take (ps - carry.length)) ++
          (stale k).take (ps - (carry ++ rem.take (ps - carry.length)).length)).take i ::
        readLoop ps stale f (k + 1) ((carry ++ rem.take (ps - carry.length)).drop (i + 1))
          (rem.drop (rem.take (ps - carry.length)).length) := by
  simp only [readLoop, if_neg hne, hl]

theorem readLoop_segs (ps : Nat) (stale : Nat → List Char) :
    ∀ (fuel k : Nat) (carry rem : List Char) (lines : List (List Char)),
      rem.length < fuel →
      carry ++ rem = unparse lines →
      '\n' ∉ carry →
      (∀ l ∈ lines, '\n' ∉ l ∧ 5 ≤ l.length ∧ l.length + 1 ≤ ps) →
      ((readLoop ps stale fuel k carry rem).map segsOf).flatten = lines := by
  intro fuel
  induction fuel with
  | zero =>
    intro k carry rem lines hf
    omega
  | succ f ih =>
    intro k carry rem lines hf hsplit hcn hlines
    cases lines with
    | nil =>
      have hc : carry = [] := (List.append_eq_nil.mp hsplit).1
      have hr : rem = [] := (List.append_eq_nil.mp hsplit).2
      subst hc
      subst hr
      simp [readLoop]
    | cons l0 ls =>
      have hl0 := hlines l0 (List.mem_cons_self _ _)
      have hcb : carry.length ≤ l0.length := by
        by_contra hgt
        push_neg at hgt
        have hcar : carry = (unparse (l0 :: ls)).take carry.length := by
          rw [← hsplit, List.take_left]
        have hx : '\n' ∈ carry := by
          rw [hcar, unparse_cons']
          exact mem_cons_take l0 (unparse ls) '\n' carry.length hgt
        exact hcn hx
      have hrem : rem ≠ [] := by
        intro hre
        subst hre
        rw [List.append_nil] at hsplit
        have hx : '\n' ∈ carry := by
          rw [hsplit, unparse_cons']
          simp
        exact hcn hx
      have hps : l0.length + 1 ≤ ps := hl0.2.2
      have h5 : 5 ≤ l0.length := hl0.2.1
      have hcps : carry.length < ps := by omega
      have hremlen : 1 ≤ rem.length := List.length_pos.mpr hrem
      have hn1 : 1 ≤ (rem.take (ps - carry.length)).length := by
        rw [List.length_take]
        omega
      have hQ : (carry ++ rem.take (ps - carry.length)) ++
          rem.drop ((rem.take (ps - carry.length)).length) = unparse (l0 :: ls) := by
        rw [List.append_assoc, take_append_drop_len]
        exact hsplit
      have hnlf : '\n' ∈ carry ++ rem.take (ps - carry.length) := by
        by_cases hfull : rem.length ≤ ps - carry.length
        · rw [List.take_of_length_le hfull, hsplit, unparse_cons']
          simp
        · push_neg at hfull
          have hflen : (carry ++ rem.take (ps - carry.length)).length = ps := by
            rw [List.length_append, List.length_take]
            omega
          have hfp : carry ++ rem.take (ps - carry.length) =
              (unparse (l0 :: ls)).take (carry ++ rem.take (ps - carry.length)).length := by
            rw [← hQ, List.take_left]
          rw [hfp, hflen, unparse_cons']
          exact mem_cons_take l0 (unparse ls) '\n' ps (by omega)
      obtain ⟨t, rest, ht1, hPe, hrn, hrq⟩ :=
        split_unparse (l0 :: ls) (fun l hm => (hlines l hm).1)
          (carry ++ rem.take (ps - carry.length))
          (rem.drop ((rem.take (ps - carry.length)).length)) hQ hnlf
      have htake_ne : (l0 :: ls).take t ≠ [] := by
        obtain ⟨t', rfl⟩ : ∃ t', t = t' + 1 := ⟨t - 1, by omega⟩
        simp
      have hUnp : unparse ((l0 :: ls).take t) = interNL ((l0 :: ls).take t) ++ ['\n'] :=
        unparse_eq_interNL _ htake_ne
      have hlast : lastIdx '\n' (carry ++ rem.take (ps - carry.length)) =
          some (interNL ((l0 :: ls).take t)).length := by
        rw [hPe, lastIdx_append_right '\n' _ _ hrn, hUnp]
        exact lastIdx_concat '\n' _
      have hIlen : (interNL ((l0 :: ls).take t)).length + 1 ≤
          (carry ++ rem.take (ps - carry.length)).length := by
        have h1 : (interNL ((l0 :: ls).take t)).length + 1 =
            (unparse ((l0 :: ls).take t)).length := by
          rw [hUnp]
          simp
        have h2 : (unparse ((l0 :: ls).take t)).length ≤
            (unparse ((l0 :: ls).take t) ++ rest).length := by
          simp
        rw [← hPe] at h2
        omega
      have hcontent : ∀ X : List Char,
          ((carry ++ rem.take (ps - carry.length)) ++ X).take
            (interNL ((l0 :: ls).take t)).length = interNL ((l0 :: ls).take t) := by
        intro X
        rw [List.take_append_of_le_length (by omega), hPe, hUnp, List.append_assoc]
        exact List.take_left' rfl
      have hnewcarry : (carry ++ rem.take (ps - carry.length)).drop
          ((interNL ((l0 :: ls).take t)).length + 1) = rest := by
        rw [hPe, hUnp]
        rw [show (interNL ((l0 :: ls).take t) ++ ['\n']) ++ rest =
          interNL ((l0 :: ls).take t) ++ ['\n'] ++ rest by simp]
        rw [List.append_assoc]
        rw [show interNL ((l0 :: ls).take t) ++ (['\n'] ++ rest) =
          (interNL ((l0 :: ls).take t) ++ ['\n']) ++ rest by simp]
        exact List.drop_left' (by simp)
      rw [readLoop_step ps stale f k carry rem (by omega) hlast]
      rw [List.map_cons, List.flatten_cons, hcontent, hnewcarry]
      have hsegs : segsOf (interNL ((l0 :: ls).take t)) = (l0 :: ls).take t :=
        segsOf_interNL _ htake_ne
          (fun y hy => ⟨(hlines y (List.mem_of_mem_take hy)).1,
            (hlines y (List.mem_of_mem_take hy)).2.1⟩)
      rw [hsegs]
      rw [ih (k + 1) rest (rem.drop ((rem.take (ps - carry.length)).length)) ((l0 :: ls).drop t)
        (by rw [List.length_drop]; omega) hrq hrn
        (fun y hy => hlines y (List.mem_of_mem_drop hy))]
      exact List.take_append_drop t (l0 :: ls)

/-! ## Worker processing as a fold over record entries -/

theorem handlePage3F_foldlM : ∀ (fuel : Nat) (c : Calc) (buf : List Char),
    handlePage3F c fuel buf = (pageSegs fuel buf).foldlM Calc.HandleLine c
  | 0, c, buf => rfl
  | fuel + 1, c, buf => by
    simp only [handlePage3F, pageSegs]
    cases hle : lineEndIndex buf with
    | none =>
      simp only [List.foldlM_cons, List.foldlM_nil]
      cases hh : c.HandleLine buf <;> simp [hh]
    | some le =>
      simp only [List.foldlM_cons]
      cases hh : c.HandleLine (buf.take le) with
      | none => simp [hh]
      | some c' =>
        simp only [hh]
        show handlePage3F c' fuel (buf.drop (le + 1)) = _
        rw [handlePage3F_foldlM fuel c' (buf.drop (le + 1))]
        simp

theorem handlePage_eq_foldlM (c : Calc) (content : List Char) :
    Calc.HandlePage c content = (segsOf content).foldlM Calc.HandleLine c :=
  handlePage3F_foldlM _ c content

theorem calc_update_eq_merge (c : Calc) (k : List Char) (v : Int) :
    c.Update k v = c.Merge k (NewStats v) := rfl

theorem foldlM_handleLine : ∀ (lines : List (List Char)) (c : Calc),
    (∀ l ∈ lines, (ParseLine3 l).isSome) →
    lines.foldlM Calc.HandleLine c = some (c.mergeAll (lines.map entryOf))
  | [], c, _ => rfl
  | l :: rest, c, h => by
    have hl := h l (List.mem_cons_self _ _)
    rcases hp : ParseLine3 l with _ | r
    · rw [hp] at hl
      simp at hl
    · simp only [List.foldlM_cons]
      have hH : Calc.HandleLine c l = some (c.Update r.1 r.2) := by
        unfold Calc.HandleLine
        rw [hp]
        rfl
      rw [hH]
      have he : entryOf l = (r.1, NewStats r.2) := by
        unfold entryOf
        rw [hp]
      show (rest.foldlM Calc.HandleLine (c.Update r.1 r.2)) = _
      rw [foldlM_handleLine rest _ (fun x hx => h x (List.mem_cons_of_mem l hx))]
      rw [List.map_cons, he, mergeAll_cons2, calc_update_eq_merge]

theorem foldlM_handlePage : ∀ (pages : List (List Char)) (c : Calc),
    (∀ l ∈ (pages.map segsOf).flatten, (ParseLine3 l).isSome) →
    pages.foldlM Calc.HandlePage c =
      some (c.mergeAll (((pages.map segsOf).flatten).map entryOf))
  | [], c, _ => rfl
  | p :: rest, c, h => by
    simp only [List.foldlM_cons]
    rw [handlePage_eq_foldlM]
    rw [foldlM_handleLine (segsOf p) c (fun l hl => h l (by
      rw [List.map_cons, List.flatten_cons]
      exact List.mem_append_left _ hl))]
    show rest.foldlM Calc.HandlePage _ = _
    rw [foldlM_handlePage rest _ (fun l hl => h l (by
      rw [List.map_cons, List.flatten_cons]
      exact List.mem_append_right _ hl))]
    rw [← mergeAll_append, ← List.map_append, ← List.flatten_cons, ← List.map_cons]

theorem mapM_runWorker : ∀ (pws : List (List (List Char))),
    (∀ l ∈ ((pws.flatten.map segsOf)).flatten, (ParseLine3 l).isSome) →
    pws.mapM runWorker =
      some (pws.map (fun pgs => Calc.empty.mergeAll (((pgs.map segsOf).flatten).map entryOf)))
  | [], _ => rfl
  | pgs :: rest, h => by
    have hmem : ∀ l ∈ ((pgs.map segsOf)).flatten, (ParseLine3 l).isSome := by
      intro l hl
      refine h l ?_
      rw [List.flatten_cons, List.map_append, List.flatten_append]
      exact List.mem_append_left _ hl
    have hrest : ∀ l ∈ ((rest.flatten.map segsOf)).flatten, (ParseLine3 l).isSome := by
      intro l hl
      refine h l ?_
      rw [List.flatten_cons, List.map_append, List.flatten_append]
      exact List.mem_append_right _ hl
    rw [List.mapM_cons]
    rw [show runWorker pgs =
        some (Calc.empty.mergeAll (((pgs.map segsOf).flatten).map entryOf)) from by
      unfold runWorker
      exact foldlM_handlePage pgs Calc.empty hmem]
    rw [mapM_runWorker rest hrest]
    rfl

/-! ## The merged global store over any worker division -/

theorem mergeParts_built : ∀ (Es : List (List (List Char × Stats))) (acc : Calc),
    (Es.map (fun E => Calc.empty.mergeAll E)).foldl (fun a c => a.mergeAll c.cities) acc =
      acc.mergeAll Es.flatten
  | [], _ => rfl
  | E :: rest, acc => by
    simp only [List.map_cons, List.foldl_cons, List.flatten_cons]
    rw [mergeAll_canonical, mergeParts_built rest _, mergeAll_append]

theorem workerLines_flatten (pws : List (List (List Char))) :
    (pws.map (fun pgs => (((pgs.map segsOf).flatten).map entryOf))).flatten =
      ((pws.flatten.map segsOf).flatten).map entryOf := by
  induction pws with
  | nil => rfl
  | cons pgs rest ih =>
    simp only [List.map_cons, List.flatten_cons, List.map_append, List.flatten_append, ih]

/-- Every run of the worker/merge/format stage on any division of a
page stream whose concatenation is (a permutation of) `lines0`'s pages
prints the store folded from `lines0`'s records. -/
theorem pipeline_eval (pws : List (List (List Char))) (lines0 : List (List Char))
    (hperm : ((pws.flatten.map segsOf)).flatten.Perm lines0)
    (hall : ∀ l ∈ lines0, (ParseLine3 l).isSome) :
    PipelineOut pws = some (WriteResults (Calc.empty.mergeAll (lines0.map entryOf))) := by
  have hall' : ∀ l ∈ ((pws.flatten.map segsOf)).flatten, (ParseLine3 l).isSome :=
    fun l hl => hall l (hperm.mem_iff.mp hl)
  unfold PipelineOut
  rw [mapM_runWorker pws hall']
  simp only [Option.map_some']
  have h1 : MergeParts
      (pws.map (fun pgs => Calc.empty.mergeAll (((pgs.map segsOf).flatten).map entryOf))) =
      Calc.empty.mergeAll
        ((pws.map (fun pgs => (((pgs.map segsOf).flatten).map entryOf))).flatten) := by
    unfold MergeParts
    rw [show pws.map (fun pgs => Calc.empty.mergeAll (((pgs.map segsOf).flatten).map entryOf)) =
      (pws.map (fun pgs => (((pgs.map segsOf).flatten).map entryOf))).map
        (fun E => Calc.empty.mergeAll E) by rw [List.map_map]; rfl]
    exact mergeParts_built _ _
  rw [h1, workerLines_flatten]
  rw [mergeAll_perm (hperm.map entryOf) Calc.empty]

/-! ## Claim theorems: end-to-end runs of the pipeline -/

/-- Claim C1: running the full `Calculate` pipeline on the input
`A;1.0\nB;2.0\nA;3.0\n` prints exactly
`\x7bA=1.0/2.0/3.0,B=2.0/2.0/2.0\x7d\n` — entries in ascending key
order, each as `key=min/mean/max` with one fractional digit, comma
separated, braced and newline-terminated — for every page size `≥ 6`
(every record of this input is 6 bytes with its terminator;
`os.Getpagesize()` is ≥ 4096 everywhere), every stale-buffer content,
every worker count and every division of the page stream among the
workers (each page consumed by exactly one worker, each worker seeing
its pages in channel order). -/
theorem calculate_small_scenario (ps : Nat) (stale : Nat → List Char)
    (pws : List (List (List Char))) (hps : 6 ≤ ps)
    (hperm : pws.flatten.Perm (ReadPagesGo ps stale "A;1.0\nB;2.0\nA;3.0\n".data)) :
    PipelineOut pws = some "\x7bA=1.0/2.0/3.0,B=2.0/2.0/2.0\x7d\n" := by
  have hinput : "A;1.0\nB;2.0\nA;3.0\n".data =
      unparse ["A;1.0".data, "B;2.0".data, "A;3.0".data] := by decide
  have hlines : ∀ l ∈ (["A;1.0".data, "B;2.0".data, "A;3.0".data] : List (List Char)),
      '\n' ∉ l ∧ 5 ≤ l.length ∧ l.length + 1 ≤ ps := by
    intro l hl
    rcases List.mem_cons.mp hl with rfl | hl
    · exact ⟨by decide, by decide, by rw [show ("A;1.0".data).length = 5 by decide]; omega⟩
    rcases List.mem_cons.mp hl with rfl | hl
    · exact ⟨by decide, by decide, by rw [show ("B;2.0".data).length = 5 by decide]; omega⟩
    rcases List.mem_cons.mp hl with rfl | hl
    · exact ⟨by decide, by decide, by rw [show ("A;3.0".data).length = 5 by decide]; omega⟩
    · cases hl
  have hreader : ((ReadPagesGo ps stale "A;1.0\nB;2.0\nA;3.0\n".data).map segsOf).flatten =
      ["A;1.0".data, "B;2.0".data, "A;3.0".data] := by
    unfold ReadPagesGo
    refine readLoop_segs ps stale _ 0 [] _ _ (Nat.lt_succ_self _) ?_ (by simp) hlines
    rw [List.nil_append]
    exact hinput
  have hflat : ((pws.flatten.map segsOf)).flatten.Perm
      ["A;1.0".data, "B;2.0".data, "A;3.0".data] := by
    rw [← hreader]
    exact (hperm.map segsOf).flatten
  rw [pipeline_eval pws _ hflat (by decide)]
  decide

/-- Witness for C1 at page size 4096, zeroed stale buffers and a single
worker receiving the whole page stream. -/
theorem calculate_small_scenario_witness :
    PipelineOut [ReadPagesGo 4096 (fun _ => []) "A;1.0\nB;2.0\nA;3.0\n".data] =
      some "\x7bA=1.0/2.0/3.0,B=2.0/2.0/2.0\x7d\n" :=
  calculate_small_scenario 4096 (fun _ => []) _ (by omega)
    (by rw [List.flatten_cons, List.flatten_nil, List.append_nil])

/-- Claim C10: on an empty input the reader enqueues no page, every
worker store stays empty, the merged global store is empty, and the
formatter still prints the braces and the newline: the pipeline
succeeds with output `\x7b\x7d\n` — for every page size, stale-buffer
content, worker count and page division. -/
theorem calculate_empty_input (ps : Nat) (stale : Nat → List Char)
    (pws : List (List (List Char)))
    (hperm : pws.flatten.Perm (ReadPagesGo ps stale [])) :
    PipelineOut pws = some "\x7b\x7d\n" := by
  have hre : ReadPagesGo ps stale [] = [] := by
    unfold ReadPagesGo
    simp [readLoop]
  rw [hre] at hperm
  have hflat : ((pws.flatten.map segsOf)).flatten.Perm [] := by
    have h1 := (hperm.map segsOf).flatten
    simpa using h1
  rw [pipeline_eval pws [] hflat (by intro l hl; cases hl)]
  decide

/-- Witness for C10 at page size 4096 with one idle worker. -/
theorem calculate_empty_input_witness :
    PipelineOut [([] : List (List Char))] = some "\x7b\x7d\n" :=
  calculate_empty_input 4096 (fun _ => []) [[]] (by decide)

